import Mathlib

/-!
Verification of the keyring rewrite tool (`fix_scripts/keyring/fix_keyring.py`).

The program reads a MySQL keyring file (textual version header, then a
sequence of length-prefixed binary key records padded to 8-byte boundaries,
then the 3-byte ASCII sentinel "EOF"), optionally renames the key whose id is
"percona_binlog" to "percona_binlog:0", and writes the rewritten file.

This file shallowly embeds the script:
* bytes are `Nat`s, byte strings are `List Nat`;
* the input file object is `InStream` (`pos` = the absolute offset already
  consumed, i.e. the value `tell()` returns; `rest` = the unread bytes);
  `read(n)` returns `min n rest.length` bytes, as Python file reads do at EOF;
* the output file object is the `List Nat` of all bytes written so far, so
  `tell()` on it is its length (the script always creates the output file
  fresh with mode `wb`);
* `struct.pack('Q', x)` / `struct.unpack('Q', b)` become `pack64` / `unpack64`
  (little-endian, 8 bytes, values reduced mod 2^64).
-/

/-- One key record of the keyring, exactly the four byte-string fields the
`Key` class carries (`key_id`, `key_type`, `user_id`, `key`).  The POD size is
not a field: the script's `Key` instances never store it (`Key.read` discards
the unpacked value and `Key.pod_size` recomputes it from the fields). -/
structure Key where
  key_id : List Nat
  key_type : List Nat
  user_id : List Nat
  key : List Nat
  deriving DecidableEq, Repr

/-- An input file handle: `pos` bytes already consumed (the `tell()` value)
and `rest` still unread. -/
structure InStream where
  pos : Nat
  rest : List Nat
  deriving DecidableEq, Repr

/-- `infile.read n`: returns at most `n` bytes; at end of file it returns the
fewer bytes that remain (possibly none) and the position advances only by the
number of bytes actually returned. -/
def sread (n : Nat) (s : InStream) : List Nat × InStream :=
  (s.rest.take n, ⟨s.pos + (s.rest.take n).length, s.rest.drop n⟩)

/-- `struct.pack('Q', x)`: eight little-endian bytes of `x` (mod 2^64). -/
def pack64 (x : Nat) : List Nat :=
  [x % 256, x / 256 % 256, x / 65536 % 256, x / 16777216 % 256,
   x / 4294967296 % 256, x / 1099511627776 % 256,
   x / 281474976710656 % 256, x / 72057594037927936 % 256]

/-- `struct.unpack('Q', ...)` on the first eight bytes of a buffer. -/
def unpack64 (b : List Nat) : Nat :=
  match b with
  | b0 :: b1 :: b2 :: b3 :: b4 :: b5 :: b6 :: b7 :: _ =>
    b0 + 256 * b1 + 65536 * b2 + 16777216 * b3 + 4294967296 * b4 +
      1099511627776 * b5 + 281474976710656 * b6 + 72057594037927936 * b7
  | _ => 0

/-- `Key.pod_size`: `4 * struct.calcsize('Q')` plus the four field lengths
plus one more `struct.calcsize('Q')` for the pod-size word itself. -/
def podSize (k : Key) : Nat :=
  4 * 8 + k.key_id.length + k.key_type.length + k.user_id.length + k.key.length + 8

/-- `Key.write_padding`: appends `(8 - tell() % 8) % 8` zero bytes, computed
from the absolute output position (the length of everything written). -/
def writePadding (out : List Nat) : List Nat :=
  out ++ List.replicate ((8 - out.length % 8) % 8) 0

/-- `Key.write`: the five packed 64-bit lengths (pod size first), then the
four fields in order, then zero padding to the next 8-byte boundary. -/
def writeKey (k : Key) (out : List Nat) : List Nat :=
  writePadding (out ++ pack64 (podSize k) ++ pack64 k.key_id.length ++
    pack64 k.key_type.length ++ pack64 k.user_id.length ++ pack64 k.key.length ++
    k.key_id ++ k.key_type ++ k.user_id ++ k.key)

/-- `Key.read_padding`: reads (and discards) `(8 - tell() % 8) % 8` bytes. -/
def readPadding (s : InStream) : InStream :=
  (sread ((8 - s.pos % 8) % 8) s).2

/-- `Key.read`: reads the 40 header bytes; `struct.unpack('QQQQQ', ...)`
raises (and the method returns `False`, here `none`) exactly when fewer than
40 bytes came back.  Otherwise it reads the four fields by their declared
lengths (a short read at EOF just returns the bytes that are there), consumes
the padding, and returns the record.  The unpacked pod size is discarded. -/
def readKey (s : InStream) : Option Key × InStream :=
  let r0 := sread 40 s
  if r0.1.length = 40 then
    let r1 := sread (unpack64 (r0.1.drop 8)) r0.2
    let r2 := sread (unpack64 (r0.1.drop 16)) r1.2
    let r3 := sread (unpack64 (r0.1.drop 24)) r2.2
    let r4 := sread (unpack64 (r0.1.drop 32)) r3.2
    (some ⟨r1.1, r2.1, r3.1, r4.1⟩, readPadding r4.2)
  else
    (none, r0.2)

/-- ASCII bytes of the target id "percona_binlog". -/
def targetId : List Nat :=
  [112, 101, 114, 99, 111, 110, 97, 95, 98, 105, 110, 108, 111, 103]

/-- ASCII bytes of the replacement id "percona_binlog:0". -/
def replacementId : List Nat := targetId ++ [58, 48]

/-- The per-record step of the write loop in `main`: if the id matches and
`-f` was given the id is rewritten; `elif` the id matches an advisory is
printed (second component `true`) and nothing changes; otherwise the record
passes through untouched. -/
def fixKey (fixFlag : Bool) (k : Key) : Key × Bool :=
  if k.key_id = targetId ∧ fixFlag = true then
    ({ k with key_id := replacementId }, false)
  else if k.key_id = targetId then (k, true)
  else (k, false)

/-- The record sequence the write loop of `main` actually writes, with the
advisory flag each iteration would print. -/
def processKeys (fixFlag : Bool) : List Key → List (Key × Bool)
  | [] => []
  | k :: ks => fixKey fixFlag k :: processKeys fixFlag ks

/-- Writing a list of records in order (the body of `main`'s write loop
after the rename step has been applied). -/
def writeKeys : List Key → List Nat → List Nat
  | [], out => out
  | k :: ks, out => writeKeys ks (writeKey k out)

/-- ASCII bytes of the sentinel "EOF". -/
def sentinel : List Nat := [69, 79, 70]

/-- `main`'s write loop: each loaded key is (possibly) renamed and then
written. -/
def writeKeysLoop (fixFlag : Bool) : List Key → List Nat → List Nat
  | [], out => out
  | k :: ks, out => writeKeysLoop fixFlag ks (writeKey (fixKey fixFlag k).1 out)

/-- The complete output file of a successful run of `main`: the replayed
header bytes, then every (possibly renamed) key, then the literal "EOF". -/
def mainOutput (header : List Nat) (fixFlag : Bool) (keys : List Key) : List Nat :=
  writeKeysLoop fixFlag keys ([] ++ header) ++ sentinel

/-- The 24 header bytes "Keyring file version:1.0". -/
def hdr24 : List Nat :=
  [75, 101, 121, 114, 105, 110, 103, 32, 102, 105, 108, 101, 32,
   118, 101, 114, 115, 105, 111, 110, 58, 49, 46, 48]

/-- The number of zero padding bytes a record whose fields are those of `k`
needs when its header starts at absolute offset `o`. -/
def keyPadCount (k : Key) (o : Nat) : Nat :=
  (8 - (o + 40 + k.key_id.length + k.key_type.length + k.user_id.length +
    k.key.length) % 8) % 8

/-- The bytes `Key.write` appends when the output already holds `o` bytes. -/
def keyBytes (k : Key) (o : Nat) : List Nat :=
  pack64 (podSize k) ++ pack64 k.key_id.length ++ pack64 k.key_type.length ++
    pack64 k.user_id.length ++ pack64 k.key.length ++
    k.key_id ++ k.key_type ++ k.user_id ++ k.key ++
    List.replicate (keyPadCount k o) 0

/-- The header scan loop of `read_keyring_header`: `buf = infile.read(1)`
repeated until `buf == ':'` (byte 58), accumulating every byte read.  The
Python loop has no bound, so `fuel` limits how many iterations we unroll;
`none` at every fuel value means the loop never terminates (once the stream
is exhausted every `read(1)` returns the empty string, the guard stays false
and the state never changes again). -/
def scanColon : Nat → InStream → List Nat → Option (List Nat × InStream)
  | 0, _, _ => none
  | fuel + 1, st, acc =>
    let r := sread 1 st
    if r.1 = [58] then some (acc ++ r.1, r.2)
    else scanColon fuel r.2 (acc ++ r.1)

/-- `read_keyring_header`: scan to the colon, then read 3 version bytes;
returns the accumulated header bytes (colon and version included), the
version bytes, and the stream. -/
def readKeyringHeader (fuel : Nat) (st : InStream) :
    Option (List Nat × List Nat × InStream) :=
  match scanColon fuel st [] with
  | none => none
  | some (hdr, st1) =>
    let r := sread 3 st1
    some (hdr ++ r.1, r.1, r.2)

/-- How many positions of `s` start an occurrence of the 3-byte sequence
"EOF". -/
def countEOF (s : List Nat) : Nat :=
  ((List.range s.length).filter (fun i => decide ((s.drop i).take 3 = sentinel))).length

/-- The successive contents of the file at the output path while the write
phase runs, after the header has been written: one entry after each record,
and a final entry after the sentinel.  `main` writes these to the final
output path itself (it opens `options.outfile` directly with mode `wb`);
there is no temporary path and no rename step anywhere in the script. -/
def keyStates (fixFlag : Bool) : List Key → List Nat → List (List Nat)
  | [], out => [out ++ sentinel]
  | k :: ks, out =>
    writeKey (fixKey fixFlag k).1 out ::
      keyStates fixFlag ks (writeKey (fixKey fixFlag k).1 out)

/-- Every content the output path holds during a run: empty right after
`open(outfile, 'wb')` truncates it, then the replayed header, then the
states after each record and after the sentinel. -/
def runStates (header : List Nat) (fixFlag : Bool) (keys : List Key) :
    List (List Nat) :=
  [] :: ([] ++ header) :: keyStates fixFlag keys ([] ++ header)

@[simp]
theorem pack64_length (x : Nat) : (pack64 x).length = 8 := rfl

theorem processKeys_eq_map (fixFlag : Bool) (keys : List Key) :
    processKeys fixFlag keys = keys.map (fixKey fixFlag) := by
  induction keys with
  | nil => rfl
  | cons k ks ih => simp [processKeys, ih]

theorem writeKey_length_aligned (k : Key) (out : List Nat) :
    (writeKey k out).length % 8 = 0 := by
  simp [writeKey, writePadding]
  omega

theorem writeKeys_cons_aligned (k : Key) (ks : List Key) (out : List Nat) :
    (writeKeys (k :: ks) out).length % 8 = 0 := by
  induction ks generalizing k out with
  | nil => simpa [writeKeys] using writeKey_length_aligned k out
  | cons k2 ks2 ih => exact ih k2 (writeKey k out)

/-- Claim C2: the rewrite loop keeps the record count and order; at every
position the written record keeps `key_type`, `user_id` and `key` unchanged,
its `key_id` is replaced by "percona_binlog:0" exactly when it equals
"percona_binlog" and the fix flag is set, and the advisory is printed exactly
when it equals "percona_binlog" and the fix flag is not set. -/
theorem C2_rename_transform (fixFlag : Bool) (keys : List Key) (i : Nat)
    (h : i < keys.length) :
    (processKeys fixFlag keys).length = keys.length ∧
    ∀ h2 : i < (processKeys fixFlag keys).length,
      ((processKeys fixFlag keys).get ⟨i, h2⟩).1.key_type = (keys.get ⟨i, h⟩).key_type ∧
      ((processKeys fixFlag keys).get ⟨i, h2⟩).1.user_id = (keys.get ⟨i, h⟩).user_id ∧
      ((processKeys fixFlag keys).get ⟨i, h2⟩).1.key = (keys.get ⟨i, h⟩).key ∧
      ((processKeys fixFlag keys).get ⟨i, h2⟩).1.key_id =
        (if (keys.get ⟨i, h⟩).key_id = targetId ∧ fixFlag = true then replacementId
         else (keys.get ⟨i, h⟩).key_id) ∧
      (((processKeys fixFlag keys).get ⟨i, h2⟩).2 = true ↔
        ((keys.get ⟨i, h⟩).key_id = targetId ∧ fixFlag = false)) := by
  refine ⟨by simp [processKeys_eq_map], ?_⟩
  intro h2
  have hg : (processKeys fixFlag keys).get ⟨i, h2⟩ =
      fixKey fixFlag (keys.get ⟨i, h⟩) := by
    simp [processKeys_eq_map, List.get_eq_getElem, List.getElem_map]
  rw [hg]
  unfold fixKey
  split_ifs with hA hB
  · obtain ⟨ha1, ha2⟩ := hA
    simp [ha1, ha2]
  · have hf : fixFlag = false := by
      cases fixFlag
      · rfl
      · exact absurd ⟨hB, rfl⟩ hA
    simp only [List.get_eq_getElem] at hB
    simp [hB, hf]
  · simp only [List.get_eq_getElem] at hB
    simp [hB]

/-- Claim C2 witness at a concrete one-record input with the fix flag set. -/
theorem C2_rename_transform_witness :
    ∃ h2 : 0 < (processKeys true [⟨targetId, [65], [], [1]⟩]).length,
      ((processKeys true [⟨targetId, [65], [], [1]⟩]).get ⟨0, h2⟩).1.key_id =
        replacementId := by
  obtain ⟨hlen, hall⟩ := C2_rename_transform true [⟨targetId, [65], [], [1]⟩] 0 (by decide)
  have h2 : 0 < (processKeys true [⟨targetId, [65], [], [1]⟩]).length := by
    rw [hlen]; decide
  obtain ⟨-, -, -, hid, -⟩ := hall h2
  refine ⟨h2, ?_⟩
  rw [hid]
  decide

/-- Claim C10: with the fix flag set, every record whose `key_id` equals
"percona_binlog" is renamed to "percona_binlog:0" (the loop has no notion of
a first match), with its other three fields unchanged. -/
theorem C10_every_match_renamed (keys : List Key) (i : Nat) (h : i < keys.length)
    (hm : (keys.get ⟨i, h⟩).key_id = targetId) :
    ∃ h2 : i < (processKeys true keys).length,
      ((processKeys true keys).get ⟨i, h2⟩).1.key_id = replacementId ∧
      ((processKeys true keys).get ⟨i, h2⟩).1.key_type = (keys.get ⟨i, h⟩).key_type ∧
      ((processKeys true keys).get ⟨i, h2⟩).1.user_id = (keys.get ⟨i, h⟩).user_id ∧
      ((processKeys true keys).get ⟨i, h2⟩).1.key = (keys.get ⟨i, h⟩).key := by
  have h2 : i < (processKeys true keys).length := by
    rw [processKeys_eq_map, List.length_map]
    exact h
  have hg : (processKeys true keys).get ⟨i, h2⟩ = fixKey true (keys.get ⟨i, h⟩) := by
    simp [processKeys_eq_map, List.get_eq_getElem, List.getElem_map]
  refine ⟨h2, ?_⟩
  rw [hg]
  unfold fixKey
  rw [if_pos ⟨hm, rfl⟩]
  exact ⟨rfl, rfl, rfl, rfl⟩

/-- Claim C10 witness: two consecutive "percona_binlog" records; the second
one (index 1, not only the first) is also renamed. -/
theorem C10_every_match_renamed_witness :
    ∃ h2 : 1 < (processKeys true
        [⟨targetId, [65], [], [1]⟩, ⟨targetId, [66], [70], [2]⟩]).length,
      ((processKeys true
        [⟨targetId, [65], [], [1]⟩, ⟨targetId, [66], [70], [2]⟩]).get
          ⟨1, h2⟩).1.key_id = replacementId := by
  obtain ⟨h2, hid, -⟩ := C10_every_match_renamed
    [⟨targetId, [65], [], [1]⟩, ⟨targetId, [66], [70], [2]⟩] 1 (by decide) (by decide)
  exact ⟨h2, hid⟩

/-- Claim C4: after each of the N records written in sequence (whatever bytes
were already in the output, e.g. the replayed header), the absolute output
offset right after that record's zero padding is a multiple of 8; the padding
is the `(8 - offset % 8) % 8` zeros `write_padding` computes from the
absolute position. -/
theorem C4_alignment (out : List Nat) (keys : List Key) (i : Nat)
    (h : i < keys.length) :
    (writeKeys (keys.take (i + 1)) out).length % 8 = 0 := by
  cases keys with
  | nil => simp at h
  | cons k ks =>
    rw [List.take_succ_cons]
    exact writeKeys_cons_aligned k (ks.take i) out

/-- Claim C4 witness: one concrete record written after the 24-byte header. -/
theorem C4_alignment_witness :
    (writeKeys (([⟨[65], [66], [], [1, 2, 3]⟩] : List Key).take (0 + 1)) hdr24).length % 8
      = 0 :=
  C4_alignment hdr24 [⟨[65], [66], [], [1, 2, 3]⟩] 0 (by decide)

theorem take_app_len (a b : List Nat) (n : Nat) (h : a.length = n) :
    (a ++ b).take n = a := by
  rw [← h, List.take_left]

theorem drop_app_len (a b : List Nat) (n : Nat) (h : a.length = n) :
    (a ++ b).drop n = b := by
  rw [← h, List.drop_left]

theorem drop_app8 (a b : List Nat) (h : a.length = 8) : (a ++ b).drop 8 = b := by
  rw [← h, List.drop_left]

theorem drop_app16 (a b : List Nat) (h : a.length = 8) :
    (a ++ b).drop 16 = b.drop 8 := by
  have h16 : (16 : Nat) = 8 + 8 := rfl
  rw [h16, ← List.drop_drop, drop_app8 a b h]

theorem drop_app24 (a b : List Nat) (h : a.length = 8) :
    (a ++ b).drop 24 = b.drop 16 := by
  have h24 : (24 : Nat) = 16 + 8 := rfl
  rw [h24, ← List.drop_drop, drop_app16 a b h, List.drop_drop]

theorem drop_app32 (a b : List Nat) (h : a.length = 8) :
    (a ++ b).drop 32 = b.drop 24 := by
  have h32 : (32 : Nat) = 24 + 8 := rfl
  rw [h32, ← List.drop_drop, drop_app24 a b h, List.drop_drop]

theorem unpack64_pack64_app (x : Nat) (z : List Nat) (h : x < 2 ^ 64) :
    unpack64 (pack64 x ++ z) = x := by
  simp only [pack64, List.cons_append, List.nil_append, unpack64]
  omega

theorem writeKey_eq (k : Key) (out : List Nat) :
    writeKey k out = out ++ keyBytes k out.length := by
  unfold writeKey writePadding keyBytes keyPadCount
  have hn : (out ++ pack64 (podSize k) ++ pack64 k.key_id.length ++
      pack64 k.key_type.length ++ pack64 k.user_id.length ++ pack64 k.key.length ++
      k.key_id ++ k.key_type ++ k.user_id ++ k.key).length =
      out.length + 40 + k.key_id.length + k.key_type.length + k.user_id.length +
        k.key.length := by
    simp only [List.length_append, pack64_length]
  rw [hn]
  simp [List.append_assoc]

theorem writeKey_drop (k : Key) (out : List Nat) :
    (writeKey k out).drop out.length = keyBytes k out.length := by
  rw [writeKey_eq]
  exact List.drop_left out _

theorem keyBytes_length (k : Key) (o : Nat) :
    (keyBytes k o).length = 40 + k.key_id.length + k.key_type.length +
      k.user_id.length + k.key.length + keyPadCount k o := by
  simp only [keyBytes, List.length_append, pack64_length, List.length_replicate]

/-- Evaluation of `Key.read` on a stream that holds exactly one well-formed
record: five 8-byte words whose last four unpack to the four field lengths,
the four fields, then the padding the offset formula dictates. -/
theorem readKey_exact (o : Nat) (p1 p2 p3 p4 p5 f1 f2 f3 f4 : List Nat) (padn : Nat)
    (h1 : p1.length = 8) (h2 : p2.length = 8) (h3 : p3.length = 8)
    (h4 : p4.length = 8) (h5 : p5.length = 8)
    (e2 : unpack64 (p2 ++ (p3 ++ (p4 ++ p5))) = f1.length)
    (e3 : unpack64 (p3 ++ (p4 ++ p5)) = f2.length)
    (e4 : unpack64 (p4 ++ p5) = f3.length)
    (e5 : unpack64 p5 = f4.length)
    (hpadn : (8 - (o + 40 + f1.length + f2.length + f3.length + f4.length) % 8) % 8
      = padn) :
    readKey ⟨o, p1 ++ (p2 ++ (p3 ++ (p4 ++ (p5 ++ (f1 ++ (f2 ++ (f3 ++
        (f4 ++ List.replicate padn 0))))))))⟩ =
      (some ⟨f1, f2, f3, f4⟩,
       ⟨o + 40 + f1.length + f2.length + f3.length + f4.length + padn, []⟩) := by
  have hgrp : p1 ++ (p2 ++ (p3 ++ (p4 ++ (p5 ++ (f1 ++ (f2 ++ (f3 ++
      (f4 ++ List.replicate padn 0)))))))) =
      (p1 ++ (p2 ++ (p3 ++ (p4 ++ p5)))) ++ (f1 ++ (f2 ++ (f3 ++
        (f4 ++ List.replicate padn 0)))) := by
    simp [List.append_assoc]
  have hlen40 : (p1 ++ (p2 ++ (p3 ++ (p4 ++ p5)))).length = 40 := by
    simp [h1, h2, h3, h4, h5]
  simp only [readKey, sread, readPadding]
  rw [hgrp, take_app_len _ _ 40 hlen40, drop_app_len _ _ 40 hlen40, if_pos hlen40,
    hlen40]
  rw [drop_app8 p1 _ h1, drop_app16 p1 _ h1, drop_app8 p2 _ h2,
    drop_app24 p1 _ h1, drop_app16 p2 _ h2, drop_app8 p3 _ h3,
    drop_app32 p1 _ h1, drop_app24 p2 _ h2, drop_app16 p3 _ h3, drop_app8 p4 _ h4]
  rw [e2, e3, e4, e5]
  rw [List.take_left, List.drop_left, List.take_left, List.drop_left,
    List.take_left, List.drop_left, List.take_left, List.drop_left]
  simp only [List.length_take, List.length_replicate]
  rw [hpadn]
  simp [List.take_replicate, List.drop_replicate]

/-- Claim C1: encode/decode round trip.  Writing any record `k` after `out`
(an already 8-byte-aligned stream position, e.g. right after the 24-byte
header or any earlier record) and decoding the produced bytes from that same
absolute offset yields exactly `k` — empty `user_id` and empty `key`
included — and consumes the whole encoding, padding and all. -/
theorem C1_roundtrip (out : List Nat) (k : Key) (hali : out.length % 8 = 0)
    (hsz : podSize k < 2 ^ 64) :
    readKey ⟨out.length, (writeKey k out).drop out.length⟩ =
      (some k, ⟨(writeKey k out).length, []⟩) := by
  have hid : k.key_id.length < 2 ^ 64 := by unfold podSize at hsz; omega
  have hty : k.key_type.length < 2 ^ 64 := by unfold podSize at hsz; omega
  have hui : k.user_id.length < 2 ^ 64 := by unfold podSize at hsz; omega
  have hke : k.key.length < 2 ^ 64 := by unfold podSize at hsz; omega
  have hkb : keyBytes k out.length =
      pack64 (podSize k) ++ (pack64 k.key_id.length ++ (pack64 k.key_type.length ++
        (pack64 k.user_id.length ++ (pack64 k.key.length ++ (k.key_id ++ (k.key_type ++
          (k.user_id ++ (k.key ++
            List.replicate (keyPadCount k out.length) 0)))))))) := by
    simp [keyBytes, List.append_assoc]
  have hread := readKey_exact out.length (pack64 (podSize k)) (pack64 k.key_id.length)
    (pack64 k.key_type.length) (pack64 k.user_id.length) (pack64 k.key.length)
    k.key_id k.key_type k.user_id k.key (keyPadCount k out.length)
    (pack64_length _) (pack64_length _) (pack64_length _) (pack64_length _)
    (pack64_length _)
    (unpack64_pack64_app _ _ hid) (unpack64_pack64_app _ _ hty)
    (unpack64_pack64_app _ _ hui) (unpack64_pack64_app _ _ hke)
    (by unfold keyPadCount; omega)
  have hwl : (writeKey k out).length = out.length + 40 + k.key_id.length +
      k.key_type.length + k.user_id.length + k.key.length +
      keyPadCount k out.length := by
    rw [writeKey_eq, List.length_append, keyBytes_length]
    omega
  rw [writeKey_drop, hkb, hread, hwl]

/-- Claim C1 witness: a concrete record (with empty `user_id`) written right
after the 24-byte header round-trips. -/
theorem C1_roundtrip_witness :
    readKey ⟨hdr24.length,
        (writeKey ⟨[65], [66], [], [1, 2, 3]⟩ hdr24).drop hdr24.length⟩ =
      (some ⟨[65], [66], [], [1, 2, 3]⟩,
       ⟨(writeKey ⟨[65], [66], [], [1, 2, 3]⟩ hdr24).length, []⟩) :=
  C1_roundtrip hdr24 ⟨[65], [66], [], [1, 2, 3]⟩ (by decide) (by decide)

theorem readKey_first8 (p q tail : List Nat) (o : Nat) (hp : p.length = 8)
    (hq : q.length = 8) (htail : 32 ≤ tail.length) :
    readKey ⟨o, p ++ tail⟩ = readKey ⟨o, q ++ tail⟩ := by
  have htake : ∀ r : List Nat, r.length = 8 →
      (r ++ tail).take 40 = r ++ tail.take 32 := by
    intro r hr
    rw [List.take_append_eq_append_take, List.take_of_length_le (by omega), hr]
  have hdrop : ∀ r : List Nat, r.length = 8 → (r ++ tail).drop 40 = tail.drop 32 := by
    intro r hr
    rw [List.drop_append_eq_append_drop, List.drop_eq_nil_of_le (by omega), hr,
      List.nil_append]
  have hlen : ∀ r : List Nat, r.length = 8 → (r ++ tail.take 32).length = 40 := by
    intro r hr
    rw [List.length_append, hr, List.length_take]
    omega
  simp only [readKey, sread]
  rw [htake p hp, htake q hq, hdrop p hp, hdrop q hq, hlen p hp, hlen q hq,
    drop_app8 p _ hp, drop_app8 q _ hq, drop_app16 p _ hp, drop_app16 q _ hq,
    drop_app24 p _ hp, drop_app24 q _ hq, drop_app32 p _ hp, drop_app32 q _ hq]

/-- Claim C3: the written `total_size` word is always the freshly recomputed
`5*8` plus the four current field lengths (the decoded pod-size word is never
consulted: replacing the stored `total_size` bytes in a source stream does
not change what `Key.read` returns), and the bytes `Key.write` emits depend
only on the field values and the output offset. -/
theorem C3_total_size (k : Key) (out alt : List Nat) (st : InStream)
    (halt : alt.length = 8) (hst : 40 ≤ st.rest.length) :
    podSize k = 5 * 8 + (k.key_id.length + k.key_type.length + k.user_id.length +
      k.key.length) ∧
    ((writeKey k out).drop out.length).take 8 = pack64 (podSize k) ∧
    (∀ out2 : List Nat, out2.length = out.length →
      (writeKey k out2).drop out2.length = (writeKey k out).drop out.length) ∧
    readKey ⟨st.pos, alt ++ st.rest.drop 8⟩ = readKey st := by
  refine ⟨by unfold podSize; omega, ?_, ?_, ?_⟩
  · have hkb : keyBytes k out.length = pack64 (podSize k) ++
        (pack64 k.key_id.length ++ (pack64 k.key_type.length ++
          (pack64 k.user_id.length ++ (pack64 k.key.length ++ (k.key_id ++
            (k.key_type ++ (k.user_id ++ (k.key ++
              List.replicate (keyPadCount k out.length) 0)))))))) := by
      simp [keyBytes, List.append_assoc]
    rw [writeKey_drop, hkb, take_app_len _ _ 8 (pack64_length _)]
  · intro out2 h2
    rw [writeKey_drop, writeKey_drop, h2]
  · have hst2 : readKey st = readKey ⟨st.pos, st.rest.take 8 ++ st.rest.drop 8⟩ := by
      rw [List.take_append_drop]
    rw [hst2]
    exact readKey_first8 alt (st.rest.take 8) (st.rest.drop 8) st.pos halt
      (by rw [List.length_take]; omega) (by rw [List.length_drop]; omega)

/-- Claim C3 witness: concrete record and a concrete 40-byte source whose
stored pod-size word is overwritten with `pack64 999` without changing the
decode result. -/
theorem C3_total_size_witness :
    ((writeKey ⟨[65], [66], [], [1]⟩ []).drop (List.length ([] : List Nat))).take 8 =
      pack64 (podSize ⟨[65], [66], [], [1]⟩) ∧
    readKey ⟨0, pack64 999 ++ (List.replicate 40 0).drop 8⟩ =
      readKey ⟨0, List.replicate 40 0⟩ := by
  obtain ⟨-, h2, -, h4⟩ := C3_total_size ⟨[65], [66], [], [1]⟩ [] (pack64 999)
    ⟨0, List.replicate 40 0⟩ rfl (by decide)
  exact ⟨h2, h4⟩

/-- Claim C6 (amended): when fewer than 40 bytes remain at a record boundary
`Key.read` does return the Eof signal (`False`, not an error), but the failed
40-byte read has consumed every remaining byte: the stream position ends up
past the sentinel, at end of stream, not at the first unread byte. -/
theorem C6_eof_consumes (st : InStream) (h : st.rest.length < 40) :
    readKey st = (none, ⟨st.pos + st.rest.length, []⟩) := by
  have ht : st.rest.take 40 = st.rest := List.take_of_length_le (by omega)
  have hd : st.rest.drop 40 = [] := List.drop_eq_nil_of_le (by omega)
  simp only [readKey, sread]
  rw [ht, hd, if_neg (by omega)]

/-- Claim C6 counterexample: a stream positioned at offset 24 with exactly
the 3-byte sentinel left.  `Key.read` signals Eof, but the position afterward
is 27 (past the consumed sentinel), not the sentinel start 24 the claim
asserts. -/
theorem C6_position_counterexample :
    (readKey ⟨24, [69, 79, 70]⟩).1 = none ∧
    (readKey ⟨24, [69, 79, 70]⟩).2.pos = 27 ∧
    (readKey ⟨24, [69, 79, 70]⟩).2.pos ≠ 24 := by decide

/-- Claim C6 witness (for the amended statement). -/
theorem C6_eof_consumes_witness :
    readKey ⟨0, [1, 2, 3]⟩ = (none, ⟨3, []⟩) :=
  C6_eof_consumes ⟨0, [1, 2, 3]⟩ (by decide)

/-- Claim C5 (amended): once the 40 header bytes are in hand `Key.read`
never fails: each field read returns whatever bytes remain (`take` of the
declared length), so a stream exhausted mid-field yields a silently
truncated record, not an error — the script has no `TruncatedRecord`. -/
theorem C5_truncation_tolerated (hdr tail : List Nat) (p : Nat)
    (h : hdr.length = 40) :
    ∃ k : Key, (readKey ⟨p, hdr ++ tail⟩).1 = some k ∧
      k.key_id = tail.take (unpack64 (hdr.drop 8)) ∧
      k.key_id.length ≤ unpack64 (hdr.drop 8) := by
  simp only [readKey, sread]
  rw [take_app_len _ _ 40 h, drop_app_len _ _ 40 h, if_pos h]
  refine ⟨_, rfl, rfl, ?_⟩
  rw [List.length_take]
  exact min_le_left _ _

/-- Claim C5 counterexample: a stream whose header declares a 5-byte
`key_id` but only 2 bytes remain.  `Key.read` returns a record (key_id
`[1, 2]`, truncated) instead of failing. -/
theorem C5_counterexample :
    (readKey ⟨0, pack64 47 ++ pack64 5 ++ pack64 0 ++ pack64 0 ++ pack64 0 ++
        [1, 2]⟩).1 = some ⟨[1, 2], [], [], []⟩ ∧
    unpack64 ((pack64 47 ++ pack64 5 ++ pack64 0 ++ pack64 0 ++ pack64 0 ++
        [1, 2]).drop 8) = 5 ∧
    ([1, 2] : List Nat).length ≠ 5 := by decide

/-- Claim C5 witness (for the amended statement). -/
theorem C5_truncation_tolerated_witness :
    ∃ k : Key, (readKey ⟨0, List.replicate 40 0 ++ [9, 9]⟩).1 = some k ∧
      k.key_id = [9, 9].take (unpack64 ((List.replicate 40 0).drop 8)) ∧
      k.key_id.length ≤ unpack64 ((List.replicate 40 0).drop 8) :=
  C5_truncation_tolerated (List.replicate 40 0) [9, 9] 0 (by decide)

theorem scanColon_no_colon (fuel : Nat) (st : InStream) (acc : List Nat)
    (h : 58 ∉ st.rest) : scanColon fuel st acc = none := by
  induction fuel generalizing st acc with
  | zero => rfl
  | succ f ih =>
    have hne : st.rest.take 1 ≠ [58] := fun he =>
      h (List.mem_of_mem_take (by rw [he]; exact List.mem_singleton_self 58))
    have hnotin : (58 : Nat) ∉ st.rest.drop 1 := fun hm => h (List.mem_of_mem_drop hm)
    simp only [scanColon, sread]
    rw [if_neg hne]
    exact ih _ _ hnotin

theorem scanColon_step (f : Nat) (st : InStream) (acc : List Nat) :
    scanColon (f + 1) st acc =
      if st.rest.take 1 = [58] then
        some (acc ++ st.rest.take 1,
          ⟨st.pos + (st.rest.take 1).length, st.rest.drop 1⟩)
      else
        scanColon f ⟨st.pos + (st.rest.take 1).length, st.rest.drop 1⟩
          (acc ++ st.rest.take 1) := rfl

theorem scanColon_finds_colon (front : List Nat) (z acc : List Nat) (o : Nat)
    (hf : 58 ∉ front) :
    scanColon (front.length + 1) ⟨o, front ++ 58 :: z⟩ acc =
      some (acc ++ front ++ [58], ⟨o + front.length + 1, z⟩) := by
  induction front generalizing acc o with
  | nil =>
    rw [scanColon_step]
    simp
  | cons b bs ih =>
    have hb : b ≠ 58 := fun he => hf (he ▸ List.mem_cons_self b bs)
    have hbs : (58 : Nat) ∉ bs := fun hm => hf (List.mem_cons_of_mem b hm)
    have hlen : (b :: bs).length + 1 = bs.length + 1 + 1 := by simp
    rw [hlen, scanColon_step]
    have ht1 : (((b :: bs) ++ 58 :: z) : List Nat).take 1 = [b] := rfl
    have hd1 : (((b :: bs) ++ 58 :: z) : List Nat).drop 1 = bs ++ 58 :: z := rfl
    rw [ht1, hd1, if_neg (by simp [hb])]
    have h1 : ([b] : List Nat).length = 1 := rfl
    rw [h1, ih (acc ++ [b]) (o + 1) hbs]
    simp only [Option.some.injEq, Prod.mk.injEq, InStream.mk.injEq]
    refine ⟨?_, ?_, trivial⟩
    · simp [List.append_assoc]
    · simp
      omega

/-- Claim C7 (code bug): the header scan of `read_keyring_header` has no
bounded window and no `MalformedHeader` failure.  On an input containing no
colon byte — here the 3-byte file "EOF" — the `while buf != ':'` loop never
terminates: however many iterations are unrolled, the scan (and hence the
header read) is still running.  (By `scanColon_finds_colon`, when a colon is
present at any depth `n` the scan succeeds only after `n + 1` reads, so no
fixed bound exists either.) -/
theorem C7_header_scan_never_terminates (fuel : Nat) (acc : List Nat) :
    scanColon fuel ⟨0, [69, 79, 70]⟩ acc = none ∧
    readKeyringHeader fuel ⟨0, [69, 79, 70]⟩ = none := by
  refine ⟨scanColon_no_colon fuel _ acc (by decide), ?_⟩
  unfold readKeyringHeader
  rw [scanColon_no_colon fuel _ [] (by decide)]

theorem writeKeysLoop_eq (fixFlag : Bool) (keys : List Key) (out : List Nat) :
    writeKeysLoop fixFlag keys out =
      writeKeys (keys.map (fun k => (fixKey fixFlag k).1)) out := by
  induction keys generalizing out with
  | nil => rfl
  | cons k ks ih => simp only [writeKeysLoop, List.map_cons, writeKeys, ih]

/-- Claim C8 (amended): the run writes the sentinel "EOF" exactly once, as
the final three bytes of the output: everything before it is exactly the
write loop's output, nothing follows it, and (when at least one record was
written) the sentinel starts at the 8-byte-aligned offset right after the
last record's padding.  The byte sequence may still occur inside record
fields, so the stream can contain it as a substring more than once. -/
theorem C8_sentinel_at_end (header : List Nat) (fixFlag : Bool) (keys : List Key) :
    (mainOutput header fixFlag keys).drop
        (writeKeysLoop fixFlag keys header).length = sentinel ∧
    (mainOutput header fixFlag keys).take
        (writeKeysLoop fixFlag keys header).length =
      writeKeysLoop fixFlag keys header ∧
    (keys ≠ [] → (writeKeysLoop fixFlag keys header).length % 8 = 0) := by
  refine ⟨?_, ?_, ?_⟩
  · simp only [mainOutput, List.nil_append]
    exact List.drop_left _ _
  · simp only [mainOutput, List.nil_append]
    exact List.take_left _ _
  · intro hne
    cases keys with
    | nil => exact absurd rfl hne
    | cons k ks =>
      rw [writeKeysLoop_eq, List.map_cons]
      exact writeKeys_cons_aligned _ _ header

/-- Claim C8 witness at a concrete run. -/
theorem C8_sentinel_at_end_witness :
    (mainOutput hdr24 false [⟨[65], [66], [], [69, 79, 70]⟩]).drop
        (writeKeysLoop false [⟨[65], [66], [], [69, 79, 70]⟩] hdr24).length
      = sentinel ∧
    (writeKeysLoop false [⟨[65], [66], [], [69, 79, 70]⟩] hdr24).length % 8 = 0 := by
  obtain ⟨h1, -, h3⟩ := C8_sentinel_at_end hdr24 false [⟨[65], [66], [], [69, 79, 70]⟩]
  exact ⟨h1, h3 (by simp)⟩

set_option maxRecDepth 16384 in
/-- Claim C8 counterexample: a record whose payload is the bytes "EOF".
The output stream then contains the 3-byte sequence at two positions (inside
the payload and as the trailing sentinel), so it does not contain it
"exactly once". -/
theorem C8_counterexample :
    countEOF (mainOutput hdr24 false [⟨[65], [66], [], [69, 79, 70]⟩]) = 2 ∧
    countEOF (mainOutput hdr24 false [⟨[65], [66], [], [69, 79, 70]⟩]) ≠ 1 := by
  decide

theorem writeKeysLoop_extends (fixFlag : Bool) (ks : List Key) (out : List Nat) :
    ∃ t, writeKeysLoop fixFlag ks out = out ++ t := by
  induction ks generalizing out with
  | nil => exact ⟨[], by simp [writeKeysLoop]⟩
  | cons k ks2 ih =>
    obtain ⟨t, ht⟩ := ih (writeKey (fixKey fixFlag k).1 out)
    refine ⟨keyBytes (fixKey fixFlag k).1 out.length ++ t, ?_⟩
    simp only [writeKeysLoop]
    rw [ht, writeKey_eq, List.append_assoc]

theorem keyStates_sub (fixFlag : Bool) (ks : List Key) (out : List Nat)
    (s : List Nat) (hs : s ∈ keyStates fixFlag ks out) :
    ∃ t, s ++ t = writeKeysLoop fixFlag ks out ++ sentinel := by
  induction ks generalizing out with
  | nil =>
    simp only [keyStates, List.mem_singleton] at hs
    exact ⟨[], by simp [hs, writeKeysLoop]⟩
  | cons k ks2 ih =>
    simp only [keyStates, List.mem_cons] at hs
    rcases hs with hs | hs
    · obtain ⟨t, ht⟩ := writeKeysLoop_extends fixFlag ks2
        (writeKey (fixKey fixFlag k).1 out)
      refine ⟨t ++ sentinel, ?_⟩
      simp only [writeKeysLoop]
      rw [hs, ht, List.append_assoc]
    · simpa only [writeKeysLoop] using ih _ hs

theorem keyStates_mem_final (fixFlag : Bool) (ks : List Key) (out : List Nat) :
    writeKeysLoop fixFlag ks out ++ sentinel ∈ keyStates fixFlag ks out := by
  induction ks generalizing out with
  | nil => simp [keyStates, writeKeysLoop]
  | cons k ks2 ih =>
    simp only [keyStates, writeKeysLoop]
    exact List.mem_cons_of_mem _ (ih _)

/-- Claim C9 (amended): the script opens the final output path directly and
writes into it in place, so every content the output path holds during the
run is a (generally proper) prefix of the final bytes — a run that stops
after writing has begun leaves such a partial prefix behind at the target
path — and the completed content is simply the last of these in-place
states; no temporary path or rename exists. -/
theorem C9_partial_file_states (header : List Nat) (fixFlag : Bool)
    (keys : List Key) (s : List Nat) (hs : s ∈ runStates header fixFlag keys) :
    (∃ t, s ++ t = mainOutput header fixFlag keys) ∧
    mainOutput header fixFlag keys ∈ runStates header fixFlag keys := by
  constructor
  · simp only [runStates, List.mem_cons, List.nil_append] at hs
    rcases hs with hs | hs | hs
    · exact ⟨mainOutput header fixFlag keys, by rw [hs, List.nil_append]⟩
    · obtain ⟨t, ht⟩ := writeKeysLoop_extends fixFlag keys header
      refine ⟨t ++ sentinel, ?_⟩
      simp only [mainOutput, List.nil_append]
      rw [hs, ht, List.append_assoc]
    · simpa only [mainOutput, List.nil_append] using keyStates_sub fixFlag keys header s hs
  · simp only [runStates, mainOutput, List.nil_append, List.mem_cons]
    exact Or.inr (Or.inr (keyStates_mem_final fixFlag keys header))

/-- Claim C9 counterexample: during a one-record fixing run, the target path
at one point holds exactly the 24 header bytes — a nonempty proper partial
file, not the final content — so an abort at that point (e.g. an I/O error
while writing the record) leaves a partially-written file at the target
path; nothing is written to a temporary path. -/
theorem C9_counterexample :
    hdr24 ∈ runStates hdr24 true [⟨targetId, [66], [], [1, 2]⟩] ∧
    hdr24 ≠ mainOutput hdr24 true [⟨targetId, [66], [], [1, 2]⟩] ∧
    hdr24 ≠ [] := by decide

/-- Claim C9 witness (for the amended statement). -/
theorem C9_partial_file_states_witness :
    (∃ t, hdr24 ++ t = mainOutput hdr24 false []) ∧
    mainOutput hdr24 false [] ∈ runStates hdr24 false [] :=
  C9_partial_file_states hdr24 false [] hdr24 (by decide)
